import Mathlib

/-!
Verification of pypose trajectory interpolation (`pypose/function/spline.py`) and
nonlinear least-squares optimizers (`pypose/optim/optimizer.py`).

The tensor programs are shallowly embedded over exact rationals: a batched tensor
computation acts on independent data lanes, so one lane is modelled with plain
lists of rationals.  Consumed collaborators (the manifold algebra, the Jacobian
provider, and the linear-solve routines pseudo-inverse / Cholesky) are taken as
parameters, exactly as the design treats them as external interfaces.
-/

namespace Pypose

/-! ## Shared tensor helpers -/

/-- Inner product of two coordinate lists: elementwise product then sum, the
building block of the `@` tensor products in the source. -/
def dot (a b : List ℚ) : ℚ := (List.zipWith (· * ·) a b).sum

/-- The power basis `tt = t ** torch.arange(4)`, i.e. `[1, t, t^2, t^3]`, used by
both spline evaluators (lines 75-76 and 186-187 of spline.py). -/
def powBasis (t : ℚ) : List ℚ := (List.range 4).map (fun a => t ^ a)

/-- Model of `torch.arange(0, stop, step)`: `⌈stop / step⌉` samples `i * step`. -/
def arangeQ (stop step : ℚ) : List ℚ :=
  (List.range (Int.toNat ⌈stop / step⌉)).map (fun i => (i : ℚ) * step)

/-! ## Cubic Hermite spline in R3 (`CSplineR3`, spline.py lines 64-87) -/

/-- One point of the `[B, N, 3]` control tensor. -/
@[ext]
structure R3 where
  x : ℚ
  y : ℚ
  z : ℚ
deriving DecidableEq

/-- Elementwise tensor addition on a 3-vector. -/
def R3.add (a b : R3) : R3 := ⟨a.x + b.x, a.y + b.y, a.z + b.z⟩

/-- Elementwise tensor subtraction on a 3-vector. -/
def R3.sub (a b : R3) : R3 := ⟨a.x - b.x, a.y - b.y, a.z - b.z⟩

/-- Scalar multiplication of a 3-vector. -/
def R3.smul (c : ℚ) (a : R3) : R3 := ⟨c * a.x, c * a.y, c * a.z⟩

/-- The breakpoint tensor `x = torch.arange(num_p)` (line 67): the integer breakpoint positions. -/
def breaks (numP : ℕ) : List ℚ := (List.range numP).map (fun i => Nat.cast i)

/-- Model of `torch.searchsorted(sorted_sequence, v)` with the default left side: for a
sorted sequence this is the first index whose entry is `≥ v`, i.e. the number of
entries strictly below `v`. -/
def searchsortedLeft (xs : List ℚ) (v : ℚ) : ℕ :=
  List.countP (fun s => decide (s < v)) xs

/-- The segment lookup of `CSplineR3` (line 72):
`idxs = torch.searchsorted(x[0, 1:], xs[0, :])`, searching the breakpoint array
with its first entry dropped. -/
def segLookup (numP : ℕ) (q : ℚ) : ℕ := searchsortedLeft ((breaks numP).drop 1) q

/-- The Hermite coefficient matrix `A` (lines 77-80). -/
def hermiteA : List (List ℚ) :=
  [[1, 0, -3, 2], [0, 1, -2, 1], [0, 0, 3, -2], [0, 0, -1, 1]]

/-- The product `hh = A @ tt` for one query time (lines 81-82): the four Hermite blending
weights at local coordinate `t`. -/
def hermiteH (t : ℚ) : List ℚ := hermiteA.map (fun row => dot row (powBasis t))

/-- Finite-difference tangents `m` (lines 69-71): one-sided differences of the
control points divided by the breakpoint spacing, then the concatenation of the
first difference, the averaged interior pairs, and the last difference. -/
def tangents (points : List R3) : List R3 :=
  let x := breaks points.length
  let d := List.zipWith (fun pd dx => R3.smul (1 / dx) pd)
    (List.zipWith (fun a b => R3.sub b a) points (points.drop 1))
    (List.zipWith (fun a b => b - a) x (x.drop 1))
  match d with
  | [] => []
  | d0 :: _ =>
    (d0 :: List.zipWith (fun a b => R3.smul (1 / 2) (R3.add a b)) (d.drop 1) d.dropLast)
      ++ [d.getLastD d0]

/-- One query of `CSplineR3` (lines 72-86): locate the containing segment, form
the local coordinate, evaluate the Hermite weights, and blend the two bounding
control points and tangents.  Out-of-range tensor indexing raises in the host
language, hence the `Option`. -/
def csplineEval (points : List R3) (q : ℚ) : Option R3 :=
  let n := points.length
  let x := breaks n
  let idx := segLookup n q
  let m := tangents points
  match x[idx]?, x[idx + 1]?, points[idx]?, points[idx + 1]?, m[idx]?, m[idx + 1]? with
  | some x0, some x1, some p0, some p1, some m0, some m1 =>
    let dx := x1 - x0
    let t := (q - x0) / dx
    let h := hermiteH t
    some ((((R3.smul (h.getD 0 0) p0).add
      (R3.smul (h.getD 1 0 * dx) m0)).add
      (R3.smul (h.getD 2 0) p1)).add
      (R3.smul (h.getD 3 0 * dx) m1))
  | _, _, _, _, _, _ => none

/-- The full `CSplineR3(points, steps)` (lines 64-87): sample the query times
`torch.arange(0, num_p - 1 + steps, steps)` and evaluate every query. -/
def CSplineR3 (points : List R3) (steps : ℚ) : Option (List R3) :=
  (arangeQ (((points.length : ℚ) - 1) + steps) steps).mapM (csplineEval points)

/-! ### Lemmas about the segment lookup -/

theorem countP_lt_range (c m : ℕ) :
    List.countP (fun j => decide (j < c)) (List.range m) = min c m := by
  induction m with
  | zero => simp
  | succ m ih =>
    rw [List.range_succ, List.countP_append, ih]
    by_cases h : m < c
    · simp [List.countP_cons, h]
      omega
    · simp [List.countP_cons, h]
      omega

theorem breaks_drop_one (m : ℕ) :
    (breaks (m + 1)).drop 1 = (List.range m).map (fun j : ℕ => (Nat.cast j : ℚ) + 1) := by
  rw [breaks, List.range_succ_eq_map, List.map_cons, List.drop_one, List.tail_cons,
    List.map_map]
  refine List.map_congr_left ?_
  intro j hj
  simp [Nat.succ_eq_add_one]

theorem segLookup_cast (n k : ℕ) (h1 : 1 ≤ k) :
    segLookup n (k : ℚ) = min (k - 1) (n - 1) := by
  rcases n with _ | m
  · simp [segLookup, searchsortedLeft, breaks]
  · rw [segLookup, searchsortedLeft, breaks_drop_one, List.countP_map]
    have hcongr : ((fun s : ℚ => decide (s < (k : ℚ))) ∘ fun j : ℕ => (Nat.cast j : ℚ) + 1)
        = fun j : ℕ => decide (j < k - 1) := by
      funext j
      simp only [Function.comp_apply, decide_eq_decide]
      have hc : ((j : ℚ) + 1 < (k : ℚ)) ↔ (j + 1 < k) := by
        exact_mod_cast Iff.rfl
      rw [hc]
      omega
    rw [hcongr, countP_lt_range]
    simp

theorem segLookup_zero (n : ℕ) : segLookup n (0 : ℚ) = 0 := by
  rw [segLookup, searchsortedLeft, List.countP_eq_zero]
  intro a ha
  have hmem := List.mem_of_mem_drop ha
  rw [breaks, List.mem_map] at hmem
  obtain ⟨i, _, rfl⟩ := hmem
  simp

theorem breaks_getElem (n i : ℕ) (h : i < n) :
    (breaks n)[i]? = some (Nat.cast i : ℚ) := by
  rw [breaks, List.getElem?_map, List.getElem?_range h]
  rfl

theorem breaks_length (n : ℕ) : (breaks n).length = n := by
  simp [breaks]

theorem tangents_length (points : List R3) (h : 2 ≤ points.length) :
    (tangents points).length = points.length := by
  have hx : (breaks points.length).length = points.length := breaks_length _
  simp only [tangents]
  split
  · next heq =>
    exfalso
    have hlen := congrArg List.length heq
    simp [List.length_zipWith, List.length_drop, hx] at hlen
    omega
  · next d0 ds heq =>
    rw [heq]
    have hlen := congrArg List.length heq
    simp only [List.length_zipWith, List.length_drop, List.length_cons, hx] at hlen
    simp only [List.length_append, List.length_cons, List.length_zipWith,
      List.length_drop, List.length_dropLast, List.length_nil]
    omega

theorem csplineEval_some (points : List R3) (q : ℚ) (x0 x1 : ℚ) (p0 p1 m0 m1 : R3)
    (hx0 : (breaks points.length)[segLookup points.length q]? = some x0)
    (hx1 : (breaks points.length)[segLookup points.length q + 1]? = some x1)
    (hp0 : points[segLookup points.length q]? = some p0)
    (hp1 : points[segLookup points.length q + 1]? = some p1)
    (hm0 : (tangents points)[segLookup points.length q]? = some m0)
    (hm1 : (tangents points)[segLookup points.length q + 1]? = some m1) :
    csplineEval points q =
      some ((((R3.smul ((hermiteH ((q - x0) / (x1 - x0))).getD 0 0) p0).add
        (R3.smul ((hermiteH ((q - x0) / (x1 - x0))).getD 1 0 * (x1 - x0)) m0)).add
        (R3.smul ((hermiteH ((q - x0) / (x1 - x0))).getD 2 0) p1)).add
        (R3.smul ((hermiteH ((q - x0) / (x1 - x0))).getD 3 0 * (x1 - x0)) m1)) := by
  rw [csplineEval]
  simp only [hx0, hx1, hp0, hp1, hm0, hm1]

theorem hermiteH_zero : hermiteH 0 = [1, 0, 0, 0] := by
  norm_num [hermiteH, hermiteA, powBasis, dot, List.range_succ]

theorem hermiteH_one : hermiteH 1 = [0, 0, 1, 0] := by
  norm_num [hermiteH, hermiteA, powBasis, dot, List.range_succ]

/-- C4 counterexample: the claim says a query exactly at an interior breakpoint
resolves to the segment starting at that breakpoint.  With 3 control points the
interior breakpoint is 1, and the segment starting there has index 1; the code's
lookup (`torch.searchsorted(x[1:], q)`, left side) returns 0 instead — the
segment ending at the breakpoint. -/
theorem c4_counterexample : segLookup 3 (1 : ℚ) = 0 ∧ segLookup 3 (1 : ℚ) ≠ 1 := by
  have h := segLookup_cast 3 1 (le_refl 1)
  rw [Nat.cast_one] at h
  constructor
  · simpa using h
  · simp only [h]
    omega

/-- C4 amended: in CSplineR3's segment lookup, a query time exactly at an
interior breakpoint `k` resolves to the segment ending at that breakpoint
(index `k - 1`, where the local coordinate becomes 1), not the segment starting
there; a final query time exactly equal to `N - 1` resolves to the last valid
segment index `N - 2` (the clamping half of the claim holds). -/
theorem c4_segment_lookup (n k : ℕ) (h2 : 2 ≤ n) (hk1 : 1 ≤ k) (hkn : k ≤ n - 1) :
    segLookup n (Nat.cast k) = k - 1 ∧ segLookup n (Nat.cast (n - 1)) = n - 2 := by
  constructor
  · rw [segLookup_cast n k hk1]
    omega
  · rw [segLookup_cast n (n - 1) (by omega)]
    omega

/-- Witness for C4's amended theorem at `n = 4`, `k = 2`. -/
theorem c4_segment_lookup_witness :
    (2 ≤ 4 ∧ 1 ≤ 2 ∧ 2 ≤ 4 - 1) ∧
      (segLookup 4 (Nat.cast 2) = 2 - 1 ∧ segLookup 4 (Nat.cast (4 - 1)) = 4 - 2) :=
  ⟨⟨by decide, by decide, by decide⟩, c4_segment_lookup 4 2 (by decide) (by decide) (by decide)⟩

theorem blend_select_left (p0 p1 m0 m1 : R3) (dx : ℚ) :
    (((R3.smul ((hermiteH 0).getD 0 0) p0).add
      (R3.smul ((hermiteH 0).getD 1 0 * dx) m0)).add
      (R3.smul ((hermiteH 0).getD 2 0) p1)).add
      (R3.smul ((hermiteH 0).getD 3 0 * dx) m1) = p0 := by
  rw [hermiteH_zero]
  ext <;> simp [R3.add, R3.smul, List.getD]

theorem blend_select_right (p0 p1 m0 m1 : R3) (dx : ℚ) :
    (((R3.smul ((hermiteH 1).getD 0 0) p0).add
      (R3.smul ((hermiteH 1).getD 1 0 * dx) m0)).add
      (R3.smul ((hermiteH 1).getD 2 0) p1)).add
      (R3.smul ((hermiteH 1).getD 3 0 * dx) m1) = p1 := by
  rw [hermiteH_one]
  ext <;> simp [R3.add, R3.smul, List.getD]

/-- C5: for a control polyline with at least 2 points, evaluating the CSplineR3
interpolation at a parametric time exactly equal to a control point's integer
index returns that control point exactly.  At index 0 the lookup gives segment 0
with local coordinate 0 and the Hermite basis reduces to `[1,0,0,0]`; at an index
`k ≥ 1` it gives segment `k - 1` with local coordinate 1 and the basis reduces to
`[0,0,1,0]`, selecting the control point in both cases. -/
theorem c5_breakpoint_interpolation (points : List R3) (k : ℕ)
    (h2 : 2 ≤ points.length) (hk : k < points.length) :
    csplineEval points (Nat.cast k) = points[k]? := by
  obtain ⟨mlo, hmlo⟩ : ∃ a, (tangents points)[k - 1]? = some a :=
    ⟨_, List.getElem?_eq_getElem (by rw [tangents_length points h2]; omega)⟩
  rcases Nat.eq_zero_or_pos k with rfl | hk1
  · have hidx : segLookup points.length (Nat.cast 0) = 0 := by
      rw [Nat.cast_zero]
      exact segLookup_zero _
    obtain ⟨p0, hp0⟩ : ∃ a, points[0]? = some a :=
      ⟨_, List.getElem?_eq_getElem (by omega)⟩
    obtain ⟨p1, hp1⟩ : ∃ a, points[1]? = some a :=
      ⟨_, List.getElem?_eq_getElem (by omega)⟩
    obtain ⟨m1, hm1⟩ : ∃ a, (tangents points)[1]? = some a :=
      ⟨_, List.getElem?_eq_getElem (by rw [tangents_length points h2]; omega)⟩
    have e := csplineEval_some points (Nat.cast 0) (Nat.cast 0) (Nat.cast 1) p0 p1 mlo m1
      (by rw [hidx]; exact breaks_getElem _ 0 (by omega))
      (by rw [hidx]; exact breaks_getElem _ 1 (by omega))
      (by rw [hidx]; exact hp0) (by rw [hidx]; exact hp1)
      (by rw [hidx]; exact hmlo) (by rw [hidx]; exact hm1)
    have ht : ((Nat.cast 0 : ℚ) - Nat.cast 0) / (Nat.cast 1 - Nat.cast 0) = 0 := by
      norm_num
    rw [ht, blend_select_left] at e
    rw [e, hp0]
  · have hidx : segLookup points.length (Nat.cast k) = k - 1 := by
      rw [segLookup_cast _ _ hk1]
      omega
    have hsucc : k - 1 + 1 = k := by omega
    obtain ⟨p0, hp0⟩ : ∃ a, points[k - 1]? = some a :=
      ⟨_, List.getElem?_eq_getElem (by omega)⟩
    obtain ⟨p1, hp1⟩ : ∃ a, points[k]? = some a :=
      ⟨_, List.getElem?_eq_getElem (by omega)⟩
    obtain ⟨m1, hm1⟩ : ∃ a, (tangents points)[k]? = some a :=
      ⟨_, List.getElem?_eq_getElem (by rw [tangents_length points h2]; omega)⟩
    have e := csplineEval_some points (Nat.cast k) (Nat.cast (k - 1)) (Nat.cast k) p0 p1 mlo m1
      (by rw [hidx]; exact breaks_getElem _ (k - 1) (by omega))
      (by rw [hidx, hsucc]; exact breaks_getElem _ k (by omega))
      (by rw [hidx]; exact hp0) (by rw [hidx, hsucc]; exact hp1)
      (by rw [hidx]; exact hmlo) (by rw [hidx, hsucc]; exact hm1)
    have ht : ((Nat.cast k : ℚ) - Nat.cast (k - 1)) / (Nat.cast k - Nat.cast (k - 1)) = 1 := by
      rw [Nat.cast_sub hk1, Nat.cast_one]
      norm_num
    rw [ht, blend_select_right] at e
    rw [e, hp1]

/-- Witness for C5 on a concrete 3-point polyline at index 1. -/
theorem c5_breakpoint_interpolation_witness :
    (2 ≤ ([⟨0, 0, 0⟩, ⟨1, 2, 3⟩, ⟨4, 5, 6⟩] : List R3).length ∧
      1 < ([⟨0, 0, 0⟩, ⟨1, 2, 3⟩, ⟨4, 5, 6⟩] : List R3).length) ∧
    csplineEval [⟨0, 0, 0⟩, ⟨1, 2, 3⟩, ⟨4, 5, 6⟩] (Nat.cast 1)
      = ([⟨0, 0, 0⟩, ⟨1, 2, 3⟩, ⟨4, 5, 6⟩] : List R3)[1]? :=
  ⟨⟨by decide, by decide⟩,
    c5_breakpoint_interpolation [⟨0, 0, 0⟩, ⟨1, 2, 3⟩, ⟨4, 5, 6⟩] 1 (by decide) (by decide)⟩

/-! ## B-spline interpolation in SE3 (`BSplineSE3`, spline.py lines 179-206)

The manifold operations are supplied by the external Manifold Algebra
collaborator, so the embedding is parametric in the pose type and its group
operations; one batch lane is modelled, since batched lanes are independent. -/

/-- The consumed Manifold Algebra interface: group composition (`*` on
LieTensors), inverse (`Inv`), logarithm and exponential maps (`Log`, `Exp`),
and scaling of a tangent vector by a blend weight. -/
structure SE3Alg (P T : Type) where
  comp : P → P → P
  inv : P → P
  logm : P → T
  expm : T → P
  smul : ℚ → T → T

/-- The time-query tensor with its leading shape `[s0, s1, K]`; only the two
leading extents matter for the shape assert on line 180. -/
structure TimeSeq where
  s0 : ℕ
  s1 : ℕ
  data : List ℚ

/-- Failures BSplineSE3 can raise: the two precondition asserts of lines
179-180, and the two runtime tensor errors degenerate pose counts produce
further down (indexing `input_poses[..., [0], :]` on an empty tensor during
padding, and `torch.stack` on an empty window list). -/
inductive BErr where
  | notSE3
  | badTimeShape
  | padIndex
  | emptyStack
deriving DecidableEq

/-- The cumulative B-spline coefficient matrix `B` (lines 188-190): the integer
tensor divided by 6. -/
def bsplineB : List (List ℚ) :=
  [[5, 3, -3, 1], [1, 3, 3, -2], [0, 0, 0, 1]].map (List.map (fun c => c / 6))

/-- Row `r` of `w = B @ tt` for one query time (lines 191-194): the cumulative
blend weight applied to the `r`-th relative increment. -/
def bsplineW (r : ℕ) (u : ℚ) : ℚ := dot (bsplineB.getD r []) (powBasis u)

/-- The padding step (lines 181-183): concatenate a duplicate of the first pose
in front and a duplicate of the last pose behind. -/
def duplicatePad {P : Type} (poses : List P) : List P :=
  match poses with
  | [] => []
  | p :: rest => (p :: p :: rest) ++ [(p :: rest).getLastD p]

/-- The full `BSplineSE3(input_poses, time)` (lines 179-206) for one batch lane: assert
the membership check and the time shape, pad the poses, and for every sliding
window of 4 consecutive padded poses and every query time compose the window
head with the three exponentially-weighted relative increments; the windows are
stacked window-major exactly as the final `reshape` lays them out. -/
def BSplineSE3 {P T : Type} (alg : SE3Alg P T) (chk : P → Bool)
    (poses : List P) (time : TimeSeq) : Except BErr (List P) :=
  if ! poses.all chk then .error .notSE3
  else if ¬ (time.s0 = time.s1 ∧ time.s1 = 1) then .error .badTimeShape
  else match poses with
    | [] => .error .padIndex
    | p0 :: rest =>
      let pad := duplicatePad (p0 :: rest)
      let windows := pad.length - 3
      if windows = 0 then .error .emptyStack
      else .ok ((List.range windows).flatMap (fun i =>
        time.data.map (fun u =>
          let q0 := pad.getD i p0
          let q1 := pad.getD (i + 1) p0
          let q2 := pad.getD (i + 2) p0
          let q3 := pad.getD (i + 3) p0
          alg.comp (alg.comp (alg.comp q0
            (alg.expm (alg.smul (bsplineW 0 u) (alg.logm (alg.comp (alg.inv q0) q1)))))
            (alg.expm (alg.smul (bsplineW 1 u) (alg.logm (alg.comp (alg.inv q1) q2)))))
            (alg.expm (alg.smul (bsplineW 2 u) (alg.logm (alg.comp (alg.inv q2) q3)))))))

/-! ### Generic facts about window-major stacking -/

theorem flatMap_range_length {α : Type} (f : ℕ → List α) (K W : ℕ)
    (hf : ∀ i, (f i).length = K) : ((List.range W).flatMap f).length = W * K := by
  induction W with
  | zero => simp
  | succ W ih =>
    rw [List.range_succ, List.flatMap_append, List.length_append, ih,
      List.flatMap_singleton, hf]
    ring

theorem flatMap_range_getElem {α : Type} (f : ℕ → List α) (K W : ℕ)
    (hf : ∀ i, (f i).length = K) (i j : ℕ) (hi : i < W) (hj : j < K) :
    ((List.range W).flatMap f)[i * K + j]? = (f i)[j]? := by
  induction W with
  | zero => omega
  | succ W ih =>
    rw [List.range_succ, List.flatMap_append]
    rcases Nat.lt_or_ge i W with h | h
    · have hlt : i * K + j < ((List.range W).flatMap f).length := by
        rw [flatMap_range_length f K W hf]
        calc i * K + j < i * K + K := by omega
          _ = (i + 1) * K := by ring
          _ ≤ W * K := Nat.mul_le_mul_right K h
      rw [List.getElem?_append, if_pos hlt]
      exact ih h
    · have hiW : i = W := by omega
      subst hiW
      have hge : ((List.range i).flatMap f).length ≤ i * K + j := by
        rw [flatMap_range_length f K i hf]
        omega
      rw [List.getElem?_append_right hge, flatMap_range_length f K i hf,
        List.flatMap_singleton]
      congr 1
      omega

theorem duplicatePad_length {P : Type} (poses : List P) (h : poses ≠ []) :
    (duplicatePad poses).length = poses.length + 2 := by
  cases poses with
  | nil => exact absurd rfl h
  | cons p rest => simp [duplicatePad]

theorem bsplineW_zero (u : ℚ) : bsplineW 0 u = (5 + 3 * u - 3 * u ^ 2 + u ^ 3) / 6 := by
  norm_num [bsplineW, bsplineB, dot, powBasis, List.range_succ]
  ring

theorem bsplineW_one (u : ℚ) : bsplineW 1 u = (1 + 3 * u + 3 * u ^ 2 - 2 * u ^ 3) / 6 := by
  norm_num [bsplineW, bsplineB, dot, powBasis, List.range_succ]
  ring

theorem bsplineW_two (u : ℚ) : bsplineW 2 u = u ^ 3 / 6 := by
  norm_num [bsplineW, bsplineB, dot, powBasis, List.range_succ]
  ring

/-- C1: for a batch lane of `N ≥ 2` control poses all passing the membership
check and a query sequence of length `K` with leading shape `[1,1]`, BSplineSE3
pads the controls by duplicating the first and the last pose (`N + 2` padded
poses), and the output has length `(N-1)·K` and holds, window-major at position
`i·K + j`, the pose `P0·exp(w0·log(P0⁻¹P1))·exp(w1·log(P1⁻¹P2))·exp(w2·log(P2⁻¹P3))`
for the window `(P0,P1,P2,P3)` of padded poses `i..i+3` and the `j`-th query
time `u`, with `(w0,w1,w2) = (1/6)·[[5,3,-3,1],[1,3,3,-2],[0,0,0,1]]·[1,u,u²,u³]`
written out as explicit polynomials. -/
theorem c1_bspline_evaluation (P T : Type) (alg : SE3Alg P T) (chk : P → Bool)
    (poses : List P) (time : TimeSeq) (hN : 2 ≤ poses.length)
    (hchk : poses.all chk = true) (hs0 : time.s0 = 1) (hs1 : time.s1 = 1) :
    ∃ out, BSplineSE3 alg chk poses time = .ok out
      ∧ (duplicatePad poses).length = poses.length + 2
      ∧ (∀ pfst plst, poses[0]? = some pfst → poses[poses.length - 1]? = some plst →
          duplicatePad poses = pfst :: poses ++ [plst])
      ∧ out.length = (poses.length - 1) * time.data.length
      ∧ ∀ i j, i < poses.length - 1 → j < time.data.length →
          ∀ q0 q1 q2 q3 u,
            (duplicatePad poses)[i]? = some q0 →
            (duplicatePad poses)[i + 1]? = some q1 →
            (duplicatePad poses)[i + 2]? = some q2 →
            (duplicatePad poses)[i + 3]? = some q3 →
            time.data[j]? = some u →
            out[i * time.data.length + j]? = some
              (alg.comp (alg.comp (alg.comp q0
                (alg.expm (alg.smul ((5 + 3 * u - 3 * u ^ 2 + u ^ 3) / 6)
                  (alg.logm (alg.comp (alg.inv q0) q1)))))
                (alg.expm (alg.smul ((1 + 3 * u + 3 * u ^ 2 - 2 * u ^ 3) / 6)
                  (alg.logm (alg.comp (alg.inv q1) q2)))))
                (alg.expm (alg.smul (u ^ 3 / 6)
                  (alg.logm (alg.comp (alg.inv q2) q3))))) := by
  rcases poses with _ | ⟨p0, rest⟩
  · simp at hN
  have hrest : 1 ≤ rest.length := by
    simpa using hN
  have hpadlen : (duplicatePad (p0 :: rest)).length = (p0 :: rest).length + 2 :=
    duplicatePad_length _ (by simp)
  have hwin : (duplicatePad (p0 :: rest)).length - 3 = rest.length := by
    rw [hpadlen]
    simp
  have hres : BSplineSE3 alg chk (p0 :: rest) time
      = .ok ((List.range ((duplicatePad (p0 :: rest)).length - 3)).flatMap (fun i =>
          time.data.map (fun u =>
            alg.comp (alg.comp (alg.comp ((duplicatePad (p0 :: rest)).getD i p0)
              (alg.expm (alg.smul (bsplineW 0 u)
                (alg.logm (alg.comp (alg.inv ((duplicatePad (p0 :: rest)).getD i p0))
                  ((duplicatePad (p0 :: rest)).getD (i + 1) p0))))))
              (alg.expm (alg.smul (bsplineW 1 u)
                (alg.logm (alg.comp (alg.inv ((duplicatePad (p0 :: rest)).getD (i + 1) p0))
                  ((duplicatePad (p0 :: rest)).getD (i + 2) p0))))))
              (alg.expm (alg.smul (bsplineW 2 u)
                (alg.logm (alg.comp (alg.inv ((duplicatePad (p0 :: rest)).getD (i + 2) p0))
                  ((duplicatePad (p0 :: rest)).getD (i + 3) p0)))))))) := by
    rw [BSplineSE3]
    rw [hchk, hs0, hs1]
    simp only [Bool.not_true, Bool.false_eq_true, if_false, and_self, not_true_eq_false]
    rw [if_neg (by rw [hwin]; omega)]
  refine ⟨_, hres, hpadlen, ?_, ?_, ?_⟩
  · intro pfst plst hfst hlst
    simp only [List.getElem?_cons_zero, Option.some_inj] at hfst
    subst hfst
    have hlast : (p0 :: rest).getLast?.getD p0 = plst := by
      rw [List.getLast?_eq_getElem?]
      simp only [List.length_cons, Nat.add_sub_cancel] at hlst ⊢
      rw [hlst]
      rfl
    simp [duplicatePad, List.getLastD_eq_getLast?, hlast]
  · rw [flatMap_range_length _ time.data.length _ (by intro i; simp), hwin]
    simp
  · intro i j hi hj q0 q1 q2 q3 u hq0 hq1 hq2 hq3 hu
    have hiW : i < (duplicatePad (p0 :: rest)).length - 3 := by
      rw [hwin]
      simpa using hi
    rw [flatMap_range_getElem _ time.data.length _ (by intro t; simp) i j hiW hj]
    rw [List.getElem?_map, hu]
    simp only [Option.map_some', Option.some_inj]
    simp only [List.getD_eq_getElem?_getD, hq0, hq1, hq2, hq3, Option.getD_some,
      bsplineW_zero, bsplineW_one, bsplineW_two]

/-- A trivial instantiation of the manifold interface, used only to evaluate the
embedding at concrete inputs. -/
def unitAlg : SE3Alg Unit Unit :=
  ⟨fun _ _ => (), fun _ => (), fun _ => (), fun _ => (), fun _ _ => ()⟩

/-- Witness for C1 with two unit poses and a single query time. -/
theorem c1_bspline_evaluation_witness :
    (2 ≤ ([(), ()] : List Unit).length ∧ ([(), ()] : List Unit).all (fun _ => true) = true) ∧
    ∃ out, BSplineSE3 unitAlg (fun _ => true) [(), ()] ⟨1, 1, [0]⟩ = .ok out ∧
      out.length = (([(), ()] : List Unit).length - 1) * ([(0 : ℚ)] : List ℚ).length := by
  refine ⟨⟨by decide, by decide⟩, ?_⟩
  obtain ⟨out, h1, _, _, h4, _⟩ := c1_bspline_evaluation Unit Unit unitAlg (fun _ => true)
    [(), ()] ⟨1, 1, [0]⟩ (by decide) (by decide) rfl rfl
  exact ⟨out, h1, h4⟩

/-- C6 counterexample: with a single control pose (fewer than 2) that passes
both asserts and a well-shaped time tensor, the call does not fail with either
precondition error; it proceeds through the padding and weight computation and
only then fails when stacking the empty window list. -/
theorem c6_counterexample :
    BSplineSE3 unitAlg (fun _ => true) [()] ⟨1, 1, [0]⟩ = .error .emptyStack ∧
      BErr.emptyStack ≠ BErr.notSE3 ∧ BErr.emptyStack ≠ BErr.badTimeShape := by
  refine ⟨?_, by decide, by decide⟩
  rfl

/-- C6 amended: a malformed time shape is indeed rejected by a precondition
assert before any computation, but a pose count below 2 is not checked: with
exactly one pose the call passes both asserts, pads the sequence, and fails
mid-computation when the window stack is empty; with zero poses it fails while
indexing the first pose during padding. -/
theorem c6_precondition_scope (P T : Type) (alg : SE3Alg P T) (chk : P → Bool)
    (poses : List P) (time : TimeSeq) (hchk : poses.all chk = true) :
    (¬ (time.s0 = time.s1 ∧ time.s1 = 1) →
      BSplineSE3 alg chk poses time = .error .badTimeShape) ∧
    (time.s0 = 1 → time.s1 = 1 → poses.length = 1 →
      BSplineSE3 alg chk poses time = .error .emptyStack) ∧
    (time.s0 = 1 → time.s1 = 1 → poses = [] →
      BSplineSE3 alg chk poses time = .error .padIndex) := by
  refine ⟨?_, ?_, ?_⟩
  · intro hbad
    rcases poses with _ | ⟨p, rest⟩ <;>
      simp [BSplineSE3, hchk, hbad]
  · intro h0 h1 hlen
    rcases poses with _ | ⟨p, rest⟩
    · simp at hlen
    · have hnil : rest = [] := by
        simpa using hlen
      subst hnil
      simp [BSplineSE3, hchk, h0, h1, duplicatePad]
  · intro h0 h1 hnil
    subst hnil
    simp [BSplineSE3, hchk, h0, h1]

/-- Witness for C6's amended theorem: a bad time shape is rejected up front,
and a single unit pose reaches the empty-stack failure. -/
theorem c6_precondition_scope_witness :
    (([()] : List Unit).all (fun _ => true) = true ∧
      ¬ ((⟨2, 1, []⟩ : TimeSeq).s0 = (⟨2, 1, []⟩ : TimeSeq).s1 ∧
        (⟨2, 1, []⟩ : TimeSeq).s1 = 1)) ∧
    BSplineSE3 unitAlg (fun _ => true) [()] ⟨2, 1, []⟩ = .error .badTimeShape ∧
    BSplineSE3 unitAlg (fun _ => true) [()] ⟨1, 1, []⟩ = .error .emptyStack :=
  ⟨⟨by decide, by decide⟩,
    (c6_precondition_scope Unit Unit unitAlg (fun _ => true) [()] ⟨2, 1, []⟩
      (by decide)).1 (by decide),
    (c6_precondition_scope Unit Unit unitAlg (fun _ => true) [()] ⟨1, 1, []⟩
      (by decide)).2.1 rfl rfl (by decide)⟩

/-- One SE(3) element of the `[B, N, 7]` pose tensor: a translation followed by
a quaternion. -/
structure PoseVec where
  tx : ℚ
  ty : ℚ
  tz : ℚ
  qx : ℚ
  qy : ℚ
  qz : ℚ
  qw : ℚ
deriving DecidableEq

/-- Modelled from the spec: the membership check `is_SE3` invoked by the assert
on line 179 is defined outside the two source files (it lives in pypose's
LieTensor layer).  Section 3 of the design requires every control pose to
satisfy the manifold membership invariant (quaternion part unit-norm), and
section 6 lists a membership-validity check for SE(3) elements among the
Manifold Algebra operations; accordingly the check accepts a pose exactly when
its quaternion part has unit norm. -/
def isSE3q (p : PoseVec) : Bool :=
  decide (p.qx ^ 2 + p.qy ^ 2 + p.qz ^ 2 + p.qw ^ 2 = 1)

/-- C7: a control pose batch containing any pose whose quaternion part is not
unit-norm is rejected by the membership assert as a precondition failure, for
every manifold algebra and every time tensor: the input is never processed. -/
theorem c7_nonunit_quaternion_rejected (T : Type) (alg : SE3Alg PoseVec T)
    (poses : List PoseVec) (time : TimeSeq) (p : PoseVec) (hp : p ∈ poses)
    (hq : p.qx ^ 2 + p.qy ^ 2 + p.qz ^ 2 + p.qw ^ 2 ≠ 1) :
    BSplineSE3 alg isSE3q poses time = .error .notSE3 := by
  have hall : poses.all isSE3q = false :=
    List.all_eq_false.mpr ⟨p, hp, by simp [isSE3q, hq]⟩
  rcases poses with _ | ⟨a, r⟩
  · simp at hp
  · simp [BSplineSE3, hall]

/-- A trivial manifold instantiation over concrete pose coordinates, used only
to evaluate the embedding at concrete inputs. -/
def poseVecAlg : SE3Alg PoseVec Unit :=
  ⟨fun a _ => a, fun a => a, fun _ => (), fun _ => ⟨0, 0, 0, 0, 0, 0, 1⟩, fun _ t => t⟩

/-- Witness for C7: a pose with quaternion `(0,0,0,2)` is rejected. -/
theorem c7_nonunit_quaternion_rejected_witness :
    ((⟨0, 0, 0, 0, 0, 0, 2⟩ : PoseVec) ∈ ([⟨0, 0, 0, 0, 0, 0, 2⟩] : List PoseVec) ∧
      (⟨0, 0, 0, 0, 0, 0, 2⟩ : PoseVec).qx ^ 2 + (⟨0, 0, 0, 0, 0, 0, 2⟩ : PoseVec).qy ^ 2
        + (⟨0, 0, 0, 0, 0, 0, 2⟩ : PoseVec).qz ^ 2
        + (⟨0, 0, 0, 0, 0, 0, 2⟩ : PoseVec).qw ^ 2 ≠ 1) ∧
    BSplineSE3 poseVecAlg isSE3q [⟨0, 0, 0, 0, 0, 0, 2⟩] ⟨1, 1, []⟩ = .error .notSE3 :=
  ⟨⟨List.mem_singleton.mpr rfl, by norm_num⟩,
    c7_nonunit_quaternion_rejected Unit poseVecAlg [⟨0, 0, 0, 0, 0, 0, 2⟩] ⟨1, 1, []⟩
      ⟨0, 0, 0, 0, 0, 0, 2⟩ (List.mem_singleton.mpr rfl) (by norm_num)⟩

/-! ## Nonlinear least-squares optimizers (`optimizer.py`)

The model, the Jacobian provider (`modjac`), and the linear solvers
(`torch.pinverse`, `torch.linalg.cholesky` with `cholesky_solve`) are consumed
collaborators, taken as parameters; the optimizer's own orchestration — residual
formation, normal-equations assembly, damping, splitting and the in-place update
— is embedded concretely on rational matrices held as row lists. -/

/-- A matrix as its list of rows. -/
abbrev Mat := List (List ℚ)

/-- Matrix-vector product (`M @ v`). -/
def matVec (M : Mat) (v : List ℚ) : List ℚ := M.map (fun r => dot r v)

/-- Tensor transpose (`J.T`) of a rectangular row-list matrix. -/
def transp (M : Mat) : Mat :=
  (List.range (M.headD []).length).map (fun j => M.map (fun r => r.getD j 0))

/-- Matrix-matrix product (`M @ N`). -/
def matMul (M N : Mat) : Mat := M.map (fun r => (transp N).map (fun c => dot r c))

/-- The diagonal `A.diagonal()` of a square matrix. -/
def diagView (A : Mat) : List ℚ :=
  (List.range A.length).map (fun i => (A.getD i []).getD i 0)

/-- Model of `x.clamp(lo, hi)` on one entry. -/
def clampQ (x lo hi : ℚ) : ℚ := min (max x lo) hi

/-- Model of `A.diagonal().add_(v)`: add `v` entrywise to the diagonal, in place. -/
def addToDiag (A : Mat) (v : List ℚ) : Mat :=
  A.mapIdx (fun i r => r.mapIdx (fun j x => if j = i then x + v.getD i 0 else x))

/-- A model output is a single tensor or a tuple of tensors, each held
flattened (`view(-1, 1)` only reshapes). -/
inductive MOut where
  | single : List ℚ → MOut
  | tuple : List (List ℚ) → MOut

/-- The residual builder `_residual` (lines 100-112): `targets - outputs` (concatenated over a tuple)
when targets are given, `-outputs` otherwise. -/
def residOf (out : MOut) (targets : Option MOut) : List ℚ :=
  match targets, out with
  | some (.single tv), .single ov => List.zipWith (fun t o => t - o) tv ov
  | some (.tuple ts), .tuple os =>
      (List.zipWith (fun tv ov => List.zipWith (fun t o => t - o) tv ov) ts os).flatten
  | some _, _ => []
  | none, .single ov => ov.map (fun o => -o)
  | none, .tuple os => (os.map (fun ov => ov.map (fun o => -o))).flatten

/-- One learnable tensor: its flattened values and its `requires_grad` flag. -/
structure Param where
  vals : List ℚ
  grad : Bool
deriving DecidableEq

/-- The counts `numels = [p.numel() for p in pg['params'] if p.requires_grad]` (lines 93
and 331). -/
def gradNumels (ps : List Param) : List ℕ :=
  (ps.filter (fun p => p.grad)).map (fun p => p.vals.length)

/-- Model of `torch.split(D, numels)` (lines 96 and 336): successive slices of the given
sizes.  The host errors when the sizes do not sum to the vector's length; the
theorems below only use it in that aligned regime. -/
def splitSizes : List ℚ → List ℕ → List (List ℚ)
  | _, [] => []
  | v, n :: ns => v.take n :: splitSizes (v.drop n) ns

/-- The update loop `[p.add_(d.view(p.shape)) for p, d in zip(pg['params'], D) if
p.requires_grad]` (lines 97 and 337): `zip` pairs parameters with slices
positionally and truncates at the shorter list, and the guard skips frozen
parameters while still consuming their paired slice.  `view` requires a slice
to carry exactly the parameter's element count; the theorems below only
exercise that aligned regime. -/
def applyUpdates : List Param → List (List ℚ) → List Param
  | [], _ => []
  | ps, [] => ps
  | p :: ps, d :: ds =>
    (if p.grad then ⟨List.zipWith (· + ·) p.vals d, p.grad⟩ else p) :: applyUpdates ps ds

/-- The consumed model plus Jacobian provider: `model(inputs)` evaluated at the
current parameters, and `modjac(model, inputs, flatten=True)` likewise. -/
structure ModelIface (I : Type) where
  forward : I → List Param → MOut
  jacobian : I → List Param → Mat

/-- The residual vector `E` at the given parameters (lines 91, 98, 329, 338). -/
def residualAt {I : Type} (M : ModelIface I) (inputs : I) (targets : Option MOut)
    (ps : List Param) : List ℚ :=
  residOf (M.forward inputs ps) targets

/-- Model of `GaussNewton.step` (lines 91-98): residual, Jacobian,
`D = (J.T @ J).pinverse() @ (J.T @ E)`, split and add in place, then recompute
the residual — the pair holds the updated parameters and the recomputed
residual vector, to which the host applies `.norm()` as the reported error. -/
def GNstep {I : Type} (pinv : Mat → Mat) (M : ModelIface I) (inputs : I)
    (targets : Option MOut) (ps : List Param) : List Param × List ℚ :=
  let E := residualAt M inputs targets ps
  let J := M.jacobian inputs ps
  let D := matVec (pinv (matMul (transp J) J)) (matVec (transp J) E)
  let ps2 := applyUpdates ps (splitSizes D (gradNumels ps))
  (ps2, residualAt M inputs targets ps2)

/-- Sum of squares of a vector: zero exactly when the Euclidean norm the host
reports via `.norm()` is zero. -/
def sumSq (v : List ℚ) : ℚ := (v.map (fun a => a * a)).sum

/-- The fatal error `torch.linalg.cholesky` raises on a matrix that is not
positive-definite. -/
inductive LMerr where
  | notPositiveDefinite
deriving DecidableEq

/-- Lines 333-334 of `LevenbergMarquardt.step`: `A = J.T @ J`, then
`A.diagonal().add_(damping * A.diagonal().clamp(min, max))` — the damping term
is computed from the original diagonal before the in-place add. -/
def lmDampedNormal (J : Mat) (damping lo hi : ℚ) : Mat :=
  let A := matMul (transp J) J
  addToDiag A ((diagView A).map (fun x => damping * clampQ x lo hi))

/-- Model of `LevenbergMarquardt.step` (lines 329-338): residual and Jacobian, the
damped normal matrix, `D = (J.T @ E).cholesky_solve(torch.linalg.cholesky(A))`
— fatal if the factor does not exist, with no fallback — then the same
split-and-add and residual recomputation as Gauss-Newton. -/
def LMstep {I : Type} (chol : Mat → Option Mat) (cholSolve : Mat → List ℚ → List ℚ)
    (M : ModelIface I) (damping lo hi : ℚ) (inputs : I) (targets : Option MOut)
    (ps : List Param) : Except LMerr (List Param × List ℚ) :=
  let E := residualAt M inputs targets ps
  let J := M.jacobian inputs ps
  let Ad := lmDampedNormal J damping lo hi
  match chol Ad with
  | none => .error .notPositiveDefinite
  | some L =>
    let D := cholSolve L (matVec (transp J) E)
    let ps2 := applyUpdates ps (splitSizes D (gradNumels ps))
    .ok (ps2, residualAt M inputs targets ps2)

/-- The optimizer state built by a successful construction: the damping scalar
and the clamp bounds stored in the param-group defaults. -/
structure LMConfig where
  damping : ℚ
  lo : ℚ
  hi : ℚ
deriving DecidableEq

/-- The assertion failure of `LevenbergMarquardt.__init__`. -/
inductive InitErr where
  | invalidDamping
deriving DecidableEq

/-- Model of `LevenbergMarquardt.__init__` (lines 269-273): `assert damping > 0`, then
store the damping and clamp bounds. -/
def LMinit (damping lo hi : ℚ) : Except InitErr LMConfig :=
  if 0 < damping then .ok ⟨damping, lo, hi⟩ else .error .invalidDamping

/-- Offset of the `k`-th parameter's slice inside the flattened update vector. -/
def offsetOf (ps : List Param) (k : ℕ) : ℕ :=
  ((ps.take k).map (fun p => p.vals.length)).sum

/-! ### Structural lemmas about the update machinery -/

theorem gradNumels_cons_grad (p : Param) (ps : List Param) (h : p.grad = true) :
    gradNumels (p :: ps) = p.vals.length :: gradNumels ps := by
  simp [gradNumels, h]

theorem gradNumels_all_grad (ps : List Param) (h : ∀ p ∈ ps, p.grad = true) :
    gradNumels ps = ps.map (fun p => p.vals.length) := by
  rw [gradNumels, List.filter_eq_self.mpr h]

theorem applyUpdates_length (ps : List Param) (ds : List (List ℚ)) :
    (applyUpdates ps ds).length = ps.length := by
  induction ps generalizing ds with
  | nil => simp [applyUpdates]
  | cons p ps ih =>
    cases ds with
    | nil => simp [applyUpdates]
    | cons d ds => simp [applyUpdates, ih]

theorem applyUpdates_aligned (ps : List Param) (D : List ℚ)
    (hgrad : ∀ p ∈ ps, p.grad = true)
    (hD : (ps.map (fun p => p.vals.length)).sum ≤ D.length) :
    ∀ k pk, ps[k]? = some pk →
      (applyUpdates ps (splitSizes D (gradNumels ps)))[k]? =
        some (Param.mk (List.zipWith (· + ·) pk.vals
          ((D.drop (offsetOf ps k)).take pk.vals.length)) pk.grad) := by
  induction ps generalizing D with
  | nil =>
    intro k pk h
    simp at h
  | cons p ps ih =>
    intro k pk hk
    have hpg : p.grad = true := hgrad p (by simp)
    rw [gradNumels_cons_grad p ps hpg]
    cases k with
    | zero =>
      simp only [List.getElem?_cons_zero, Option.some_inj] at hk
      subst hk
      simp [applyUpdates, splitSizes, hpg, offsetOf]
    | succ k =>
      simp only [List.getElem?_cons_succ] at hk
      have hrest : ∀ q ∈ ps, q.grad = true := fun q hq => hgrad q (List.mem_cons_of_mem _ hq)
      have hD2 : (ps.map (fun q => q.vals.length)).sum ≤ (D.drop p.vals.length).length := by
        simp only [List.map_cons, List.sum_cons] at hD
        simp only [List.length_drop]
        omega
      have hrec := ih (D.drop p.vals.length) hrest hD2 k pk hk
      have hoff : offsetOf (p :: ps) (k + 1) = p.vals.length + offsetOf ps k := by
        simp [offsetOf, List.take_succ_cons]
      simp only [splitSizes, applyUpdates, List.getElem?_cons_succ]
      rw [hrec, List.drop_drop, hoff]

theorem applyUpdates_frame (ps : List Param) (ds : List (List ℚ)) (k : ℕ) (pk : Param)
    (hk : ps[k]? = some pk) (hfrozen : pk.grad = false) :
    (applyUpdates ps ds)[k]? = some pk := by
  induction ps generalizing ds k with
  | nil => simp at hk
  | cons p ps ih =>
    cases ds with
    | nil =>
      simpa [applyUpdates] using hk
    | cons d ds =>
      cases k with
      | zero =>
        simp only [List.getElem?_cons_zero, Option.some_inj] at hk
        subst hk
        simp [applyUpdates, hfrozen]
      | succ k =>
        simp only [List.getElem?_cons_succ] at hk
        simp only [applyUpdates, List.getElem?_cons_succ]
        exact ih ds k hk

theorem zipWith_add_zero (v d : List ℚ) (hd : ∀ a ∈ d, a = 0) (hlen : v.length ≤ d.length) :
    List.zipWith (· + ·) v d = v := by
  induction v generalizing d with
  | nil => simp
  | cons x v ih =>
    cases d with
    | nil => simp at hlen
    | cons b d =>
      have hb : b = 0 := hd b (by simp)
      have hd2 : ∀ a ∈ d, a = 0 := fun a ha => hd a (by simp [ha])
      simp [hb, ih d hd2 (by simpa using hlen)]

theorem applyUpdates_zero (ps : List Param) (D : List ℚ)
    (hD : ∀ a ∈ D, a = 0) (hlen : (ps.map (fun p => p.vals.length)).sum ≤ D.length)
    (hgrad : ∀ p ∈ ps, p.grad = true) :
    applyUpdates ps (splitSizes D (gradNumels ps)) = ps := by
  induction ps generalizing D with
  | nil => rfl
  | cons p ps ih =>
    obtain ⟨pvals, pgrad⟩ := p
    have hpg : pgrad = true := hgrad ⟨pvals, pgrad⟩ (by simp)
    subst hpg
    have hrest : ∀ q ∈ ps, q.grad = true := fun q hq => hgrad q (List.mem_cons_of_mem _ hq)
    rw [gradNumels_cons_grad ⟨pvals, true⟩ ps rfl]
    have hhead : List.zipWith (· + ·) pvals (D.take pvals.length) = pvals := by
      refine zipWith_add_zero _ _ (fun a ha => hD a (List.take_subset _ _ ha)) ?_
      simp only [List.map_cons, List.sum_cons] at hlen
      simp only [List.length_take]
      omega
    have htail : applyUpdates ps (splitSizes (D.drop pvals.length) (gradNumels ps)) = ps := by
      refine ih (D.drop pvals.length) (fun a ha => hD a (List.drop_subset _ _ ha)) ?_ hrest
      simp only [List.map_cons, List.sum_cons] at hlen
      simp only [List.length_drop]
      omega
    simp only [splitSizes, applyUpdates, if_true, hhead, htail]

theorem dot_zero_right (r v : List ℚ) (hv : ∀ a ∈ v, a = 0) : dot r v = 0 := by
  induction r generalizing v with
  | nil => simp [dot]
  | cons x r ih =>
    cases v with
    | nil => simp [dot]
    | cons b v =>
      have hb : b = 0 := hv b (by simp)
      have hv2 : ∀ a ∈ v, a = 0 := fun a ha => hv a (by simp [ha])
      have hr := ih v hv2
      simp only [dot, List.zipWith_cons_cons, List.sum_cons] at hr ⊢
      rw [hb, hr]
      ring

theorem matVec_zero (M : Mat) (v : List ℚ) (hv : ∀ a ∈ v, a = 0) :
    ∀ a ∈ matVec M v, a = 0 := by
  intro a ha
  rw [matVec, List.mem_map] at ha
  obtain ⟨r, _, rfl⟩ := ha
  exact dot_zero_right r v hv

theorem sumSq_zero (v : List ℚ) (hv : ∀ a ∈ v, a = 0) : sumSq v = 0 := by
  rw [sumSq]
  refine List.sum_eq_zero ?_
  intro x hx
  rw [List.mem_map] at hx
  obtain ⟨a, ha, rfl⟩ := hx
  rw [hv a ha]
  ring

theorem matVec_length (M : Mat) (v : List ℚ) : (matVec M v).length = M.length := by
  simp [matVec]

theorem matMul_length (M N : Mat) : (matMul M N).length = M.length := by
  simp [matMul]

theorem transp_length (M : Mat) : (transp M).length = (M.headD []).length := by
  simp [transp]

/-- C8: constructing a LevenbergMarquardt optimizer with damping `d ≤ 0` fails
the construction assert, and any successfully constructed optimizer state
carries a strictly positive damping — so no step ever runs with a non-positive
damping value. -/
theorem c8_damping_precondition (d lo hi : ℚ) :
    (d ≤ 0 → LMinit d lo hi = .error .invalidDamping) ∧
    (∀ cfg, LMinit d lo hi = .ok cfg → 0 < cfg.damping) := by
  constructor
  · intro hd
    rw [LMinit, if_neg (not_lt.mpr hd)]
  · intro cfg hcfg
    rw [LMinit] at hcfg
    by_cases h : 0 < d
    · rw [if_pos h] at hcfg
      cases hcfg
      exact h
    · rw [if_neg h] at hcfg
      cases hcfg

/-- Witness for C8: damping `-1` is rejected; damping `1` yields a state with
positive damping. -/
theorem c8_damping_precondition_witness :
    ((-1 : ℚ) ≤ 0 ∧ LMinit (-1) (1 / 1000000) (10 ^ 32) = .error .invalidDamping) ∧
      (LMinit 1 0 1 = .ok ⟨1, 0, 1⟩ ∧ 0 < (⟨1, 0, 1⟩ : LMConfig).damping) :=
  ⟨⟨by norm_num, (c8_damping_precondition (-1) (1 / 1000000) (10 ^ 32)).1 (by norm_num)⟩,
    ⟨by rw [LMinit, if_pos (by norm_num)],
      (c8_damping_precondition 1 0 1).2 ⟨1, 0, 1⟩ (by rw [LMinit, if_pos (by norm_num)])⟩⟩

/-- C10: a parameter with `requires_grad = False` is left unchanged by a step of
either optimizer — the guard in the in-place update skips frozen parameters, and
the Levenberg-Marquardt error path updates nothing at all. -/
theorem c10_frozen_params_preserved (I : Type) (pinv : Mat → Mat)
    (chol : Mat → Option Mat) (cholSolve : Mat → List ℚ → List ℚ) (M : ModelIface I)
    (damping lo hi : ℚ) (inputs : I) (targets : Option MOut) (ps : List Param)
    (k : ℕ) (pk : Param) (hk : ps[k]? = some pk) (hfrozen : pk.grad = false) :
    ((GNstep pinv M inputs targets ps).1)[k]? = some pk ∧
    (∀ ps2 r2, LMstep chol cholSolve M damping lo hi inputs targets ps = .ok (ps2, r2) →
      ps2[k]? = some pk) := by
  constructor
  · exact applyUpdates_frame ps _ k pk hk hfrozen
  · intro ps2 r2 h
    rw [LMstep] at h
    rcases hchol : chol (lmDampedNormal (M.jacobian inputs ps) damping lo hi) with _ | L
    · rw [hchol] at h
      cases h
    · rw [hchol] at h
      simp only [Except.ok.injEq, Prod.mk.injEq] at h
      obtain ⟨hps2, _⟩ := h
      subst hps2
      exact applyUpdates_frame ps _ k pk hk hfrozen

/-- A constant model producing the single zero output with a 1×1 identity
Jacobian, used only to evaluate the optimizer embedding concretely. -/
def constZeroModel : ModelIface Unit :=
  ⟨fun _ _ => .single [0], fun _ _ => [[1]]⟩

/-- Witness for C10: a frozen single-entry parameter survives a Gauss-Newton
step unchanged. -/
theorem c10_frozen_params_preserved_witness :
    (([⟨[3], false⟩] : List Param)[0]? = some ⟨[3], false⟩ ∧
      (⟨[3], false⟩ : Param).grad = false) ∧
    ((GNstep id constZeroModel () none [⟨[3], false⟩]).1)[0]? = some ⟨[3], false⟩ :=
  ⟨⟨rfl, rfl⟩,
    (c10_frozen_params_preserved Unit id (fun A => some A) (fun _ v => v) constZeroModel
      1 0 1 () none [⟨[3], false⟩] 0 ⟨[3], false⟩ rfl rfl).1⟩

/-- C9: when the residual at the current parameters is exactly zero, the
Gauss-Newton step computes an exactly-zero update
`D = pinv(JᵀJ) @ (Jᵀ @ E) = 0`, leaves every parameter unchanged, and the
recomputed residual it reports is that same zero vector — so the returned
Euclidean norm is 0 (its sum of squares is 0).  The hypotheses state the shape
conformance of the consumed collaborators: the Jacobian has one column per
element of the learnable parameters and the pseudo-inverse is size-preserving. -/
theorem c9_zero_residual_fixpoint (I : Type) (pinv : Mat → Mat) (M : ModelIface I)
    (inputs : I) (targets : Option MOut) (ps : List Param)
    (hgrad : ∀ p ∈ ps, p.grad = true)
    (hcols : ((M.jacobian inputs ps).headD []).length = (gradNumels ps).sum)
    (hpinv : ∀ A, (pinv A).length = A.length)
    (hE : ∀ a ∈ residualAt M inputs targets ps, a = 0) :
    (GNstep pinv M inputs targets ps).1 = ps ∧
    (∀ a ∈ matVec (pinv (matMul (transp (M.jacobian inputs ps)) (M.jacobian inputs ps)))
        (matVec (transp (M.jacobian inputs ps)) (residualAt M inputs targets ps)), a = 0) ∧
    (GNstep pinv M inputs targets ps).2 = residualAt M inputs targets ps ∧
    sumSq (GNstep pinv M inputs targets ps).2 = 0 := by
  have hjte : ∀ a ∈ matVec (transp (M.jacobian inputs ps))
      (residualAt M inputs targets ps), a = 0 := matVec_zero _ _ hE
  have hdelta : ∀ a ∈ matVec (pinv (matMul (transp (M.jacobian inputs ps))
      (M.jacobian inputs ps)))
      (matVec (transp (M.jacobian inputs ps)) (residualAt M inputs targets ps)), a = 0 :=
    matVec_zero _ _ hjte
  have hdlen : (matVec (pinv (matMul (transp (M.jacobian inputs ps)) (M.jacobian inputs ps)))
      (matVec (transp (M.jacobian inputs ps)) (residualAt M inputs targets ps))).length
      = (ps.map (fun p => p.vals.length)).sum := by
    rw [matVec_length, hpinv, matMul_length, transp_length, hcols,
      gradNumels_all_grad ps hgrad]
  have hfix : applyUpdates ps (splitSizes
      (matVec (pinv (matMul (transp (M.jacobian inputs ps)) (M.jacobian inputs ps)))
        (matVec (transp (M.jacobian inputs ps)) (residualAt M inputs targets ps)))
      (gradNumels ps)) = ps :=
    applyUpdates_zero ps _ hdelta (le_of_eq hdlen.symm) hgrad
  have h1 : (GNstep pinv M inputs targets ps).1 = ps := by
    simp only [GNstep]
    exact hfix
  have h2 : (GNstep pinv M inputs targets ps).2 = residualAt M inputs targets ps := by
    simp only [GNstep]
    rw [hfix]
  exact ⟨h1, hdelta, h2, by rw [h2]; exact sumSq_zero _ hE⟩

/-- Witness for C9: a single learnable parameter with the constant-zero model. -/
theorem c9_zero_residual_fixpoint_witness :
    (∀ a ∈ residualAt constZeroModel () none [⟨[5], true⟩], a = 0) ∧
    (GNstep id constZeroModel () none [⟨[5], true⟩]).1 = [⟨[5], true⟩] ∧
    sumSq (GNstep id constZeroModel () none [⟨[5], true⟩]).2 = 0 := by
  have hE : ∀ a ∈ residualAt constZeroModel () none [⟨[5], true⟩], a = 0 := by
    intro a ha
    rw [show residualAt constZeroModel () none [⟨[5], true⟩] = [-(0 : ℚ)] from rfl] at ha
    rw [List.mem_singleton] at ha
    subst ha
    norm_num
  have h := c9_zero_residual_fixpoint Unit id constZeroModel () none [⟨[5], true⟩]
    (by intro p hp; rw [List.mem_singleton] at hp; subst hp; rfl) rfl (fun A => rfl) hE
  exact ⟨hE, h.1, h.2.2.2⟩

/-- C3: the Gauss-Newton step forms the residual as `targets - outputs`
(or `-outputs` without targets), flattened and concatenated over tuple outputs;
computes the update `D = pinv(JᵀJ) @ (Jᵀ @ E)`; adds its slices, split by the
per-parameter element counts, in place to the parameters; and the error it
reports is the Euclidean norm of the residual recomputed at the updated
parameters (the second component below, to which the host applies `.norm()`). -/
theorem c3_gauss_newton_step (I : Type) (pinv : Mat → Mat) (M : ModelIface I)
    (inputs : I) (targets : Option MOut) (ps : List Param)
    (hgrad : ∀ p ∈ ps, p.grad = true)
    (hcols : ((M.jacobian inputs ps).headD []).length = (gradNumels ps).sum)
    (hpinv : ∀ A, (pinv A).length = A.length) :
    (∀ tv ov, targets = some (.single tv) → M.forward inputs ps = .single ov →
      residualAt M inputs targets ps = List.zipWith (fun t o => t - o) tv ov) ∧
    (∀ ts os, targets = some (.tuple ts) → M.forward inputs ps = .tuple os →
      residualAt M inputs targets ps
        = (List.zipWith (fun tv ov => List.zipWith (fun t o => t - o) tv ov) ts os).flatten) ∧
    (∀ ov, targets = none → M.forward inputs ps = .single ov →
      residualAt M inputs targets ps = ov.map (fun o => -o)) ∧
    (∀ os, targets = none → M.forward inputs ps = .tuple os →
      residualAt M inputs targets ps = (os.map (fun ov => ov.map (fun o => -o))).flatten) ∧
    ((GNstep pinv M inputs targets ps).1.length = ps.length ∧
      ∀ k pk, ps[k]? = some pk →
        ((GNstep pinv M inputs targets ps).1)[k]? = some (Param.mk
          (List.zipWith (· + ·) pk.vals
            (((matVec (pinv (matMul (transp (M.jacobian inputs ps)) (M.jacobian inputs ps)))
                (matVec (transp (M.jacobian inputs ps))
                  (residualAt M inputs targets ps))).drop (offsetOf ps k)).take
              pk.vals.length)) pk.grad)) ∧
    (GNstep pinv M inputs targets ps).2
      = residualAt M inputs targets ((GNstep pinv M inputs targets ps).1) := by
  have hdlen : (matVec (pinv (matMul (transp (M.jacobian inputs ps)) (M.jacobian inputs ps)))
      (matVec (transp (M.jacobian inputs ps)) (residualAt M inputs targets ps))).length
      = (ps.map (fun p => p.vals.length)).sum := by
    rw [matVec_length, hpinv, matMul_length, transp_length, hcols,
      gradNumels_all_grad ps hgrad]
  refine ⟨?_, ?_, ?_, ?_, ⟨?_, ?_⟩, ?_⟩
  · intro tv ov htar hfor
    rw [residualAt, hfor, htar]
    rfl
  · intro ts os htar hfor
    rw [residualAt, hfor, htar]
    rfl
  · intro ov htar hfor
    rw [residualAt, hfor, htar]
    rfl
  · intro os htar hfor
    rw [residualAt, hfor, htar]
    rfl
  · simp only [GNstep]
    exact applyUpdates_length _ _
  · intro k pk hk
    have hup := applyUpdates_aligned ps _ hgrad (le_of_eq hdlen.symm) k pk hk
    simp only [GNstep]
    exact hup
  · rfl

/-- Witness for C3: the constant-zero model with one learnable parameter. -/
theorem c3_gauss_newton_step_witness :
    ((GNstep id constZeroModel () none [⟨[5], true⟩]).1.length
        = ([⟨[5], true⟩] : List Param).length) ∧
    (GNstep id constZeroModel () none [⟨[5], true⟩]).2
      = residualAt constZeroModel () none ((GNstep id constZeroModel () none [⟨[5], true⟩]).1) := by
  have h := c3_gauss_newton_step Unit id constZeroModel () none [⟨[5], true⟩]
    (by intro p hp; rw [List.mem_singleton] at hp; subst hp; rfl) rfl (fun A => rfl)
  exact ⟨h.2.2.2.2.1.1, h.2.2.2.2.2⟩

/-- C2: the Levenberg-Marquardt step forms `A = JᵀJ` and adds
`damping · clamp(diag(JᵀJ), min, max)` to its diagonal (stated entrywise on
each row); when the consumed Cholesky factorization of the damped matrix fails
the step signals the fatal error with no fallback; otherwise it solves against
the factor, `D = cholesky_solve(JᵀE, L)`, and adds the slices of `D`, split by
the per-parameter element counts and reshaped, in place to the parameters,
returning the residual recomputed at the updated parameters (to which the host
applies `.norm()`). -/
theorem c2_levenberg_marquardt_step (I : Type) (chol : Mat → Option Mat)
    (cholSolve : Mat → List ℚ → List ℚ) (M : ModelIface I) (damping lo hi : ℚ)
    (inputs : I) (targets : Option MOut) (ps : List Param)
    (hgrad : ∀ p ∈ ps, p.grad = true)
    (hcols : ((M.jacobian inputs ps).headD []).length = (gradNumels ps).sum)
    (hsolve : ∀ L v, (cholSolve L v).length = v.length) :
    (∀ (i : ℕ) (ri : List ℚ),
      (matMul (transp (M.jacobian inputs ps)) (M.jacobian inputs ps))[i]? = some ri →
      (lmDampedNormal (M.jacobian inputs ps) damping lo hi)[i]? = some
        (ri.mapIdx (fun j x =>
          if j = i then x + damping * clampQ (ri.getD i 0) lo hi else x))) ∧
    (chol (lmDampedNormal (M.jacobian inputs ps) damping lo hi) = none →
      LMstep chol cholSolve M damping lo hi inputs targets ps
        = .error .notPositiveDefinite) ∧
    (∀ L, chol (lmDampedNormal (M.jacobian inputs ps) damping lo hi) = some L →
      ∃ ps2, LMstep chol cholSolve M damping lo hi inputs targets ps
          = .ok (ps2, residualAt M inputs targets ps2)
        ∧ ps2.length = ps.length
        ∧ ∀ k pk, ps[k]? = some pk →
            ps2[k]? = some (Param.mk
              (List.zipWith (· + ·) pk.vals
                (((cholSolve L (matVec (transp (M.jacobian inputs ps))
                    (residualAt M inputs targets ps))).drop (offsetOf ps k)).take
                  pk.vals.length)) pk.grad)) := by
  refine ⟨?_, ?_, ?_⟩
  · intro i ri hri
    have hilt : i < (matMul (transp (M.jacobian inputs ps)) (M.jacobian inputs ps)).length := by
      rcases List.getElem?_eq_some_iff.mp hri with ⟨h, -⟩
      exact h
    have hrow : (matMul (transp (M.jacobian inputs ps)) (M.jacobian inputs ps)).getD i []
        = ri := by
      rw [List.getD_eq_getElem?_getD, hri, Option.getD_some]
    have hdiag : ((diagView (matMul (transp (M.jacobian inputs ps))
        (M.jacobian inputs ps))).map (fun x => damping * clampQ x lo hi)).getD i 0
        = damping * clampQ (ri.getD i 0) lo hi := by
      rw [List.getD_eq_getElem?_getD, List.getElem?_map, diagView, List.getElem?_map,
        List.getElem?_range hilt]
      simp only [Option.map_some', Option.getD_some, hrow]
    simp only [lmDampedNormal, addToDiag, List.getElem?_mapIdx, hri, Option.map_some',
      hdiag]
  · intro h
    simp only [LMstep, h]
  · intro L hL
    have hdlen : (cholSolve L (matVec (transp (M.jacobian inputs ps))
        (residualAt M inputs targets ps))).length
        = (ps.map (fun p => p.vals.length)).sum := by
      rw [hsolve, matVec_length, transp_length, hcols, gradNumels_all_grad ps hgrad]
    refine ⟨applyUpdates ps (splitSizes (cholSolve L (matVec (transp (M.jacobian inputs ps))
      (residualAt M inputs targets ps))) (gradNumels ps)), ?_, ?_, ?_⟩
    · simp only [LMstep, hL]
    · exact applyUpdates_length _ _
    · intro k pk hk
      exact applyUpdates_aligned ps _ hgrad (le_of_eq hdlen.symm) k pk hk

/-- Witness for C2: the constant-zero model, identity-like solver collaborators,
and one learnable parameter exercise the successful Cholesky path. -/
theorem c2_levenberg_marquardt_step_witness :
    ∃ ps2, LMstep (fun A => some A) (fun _ v => v) constZeroModel 1 0 1 () none
        [⟨[5], true⟩] = .ok (ps2, residualAt constZeroModel () none ps2)
      ∧ ps2.length = ([⟨[5], true⟩] : List Param).length := by
  have h := c2_levenberg_marquardt_step Unit (fun A => some A) (fun _ v => v)
    constZeroModel 1 0 1 () none [⟨[5], true⟩]
    (by intro p hp; rw [List.mem_singleton] at hp; subst hp; rfl) rfl (fun L v => rfl)
  obtain ⟨ps2, h1, h2, -⟩ :=
    h.2.2 (lmDampedNormal (constZeroModel.jacobian () [⟨[5], true⟩]) 1 0 1) rfl
  exact ⟨ps2, h1, h2⟩

end Pypose
